import Mathlib

/-!
# Verification of the qualifier/column extractor (`src/column.py`, `parse_query`)

The program walks a parsed SQL syntax tree and builds an insertion-ordered
map from qualifier names (CTE names, table aliases, subquery aliases, bare
column prefixes) to an entry holding the underlying source name and the
referenced columns.

We embed the tree shape the extractor consumes: the four node lists that
`parsed.find_all(CTE)`, `find_all(Table)`, `find_all(Subquery)` and
`find_all(Column)` return, each list in tree-traversal order.  Python's
optional string attributes (`alias`, `table`) are modelled as strings where
the empty string means "absent", matching the truthiness tests in the
source (`table_expr.«alias» or table_expr.name`, `if col_expr.table:`,
`if subq_alias:`).  The insertion-ordered Python `dict` is modelled as an
association list where overwriting an existing key keeps its position and
a new key is appended at the end.
-/

/-- A common-table-expression definition node (`find_all(CTE)`):
only its declared name is consumed (`cte_expr.«alias»`). -/
structure CTENode where
  «alias» : String
  deriving Repr, DecidableEq

/-- A table-reference node (`find_all(Table)`): `table_expr.name` and
`table_expr.«alias»` (empty string when there is no alias). -/
structure TableNode where
  name : String
  «alias» : String
  deriving Repr, DecidableEq

/-- A subquery node (`find_all(Subquery)`): only its alias is consumed
(empty string when there is no alias). -/
structure SubqueryNode where
  «alias» : String
  deriving Repr, DecidableEq

/-- A column-reference node (`find_all(Column)`): `col_expr.table` is the
qualifier prefix (empty string when the column is bare), `col_expr.name`
the bare column name, and `alias` the output alias (empty string when
absent), so that `alias_or_name` is `alias` if nonempty else `name`. -/
structure ColumnNode where
  table : String
  name : String
  «alias» : String
  deriving Repr, DecidableEq

/-- The part of the parsed syntax tree the extractor consumes: the four
node lists, each in tree-traversal (`find_all`) order. -/
structure SyntaxTree where
  ctes : List CTENode
  tables : List TableNode
  subqueries : List SubqueryNode
  columns : List ColumnNode
  deriving Repr, DecidableEq

/-- One value of the `info` dict: `{"table_name": ..., "columns": [...]}`.
`table_name` is the literal string `"CTE"` for CTE registrations,
`"Subquery"` for subquery registrations, the referenced table's name for
table registrations, and the qualifier itself for unknown qualifiers. -/
structure Entry where
  table_name : String
  columns : List String
  deriving Repr, DecidableEq

/-- The `info` dict: an insertion-ordered map from qualifier to entry. -/
abbrev InfoMap := List (String × Entry)

/-- `info[k] = v` on an insertion-ordered dict: overwrite in place when the
key exists (keeping its position), otherwise append at the end. -/
def insertOrReplace : InfoMap → String → Entry → InfoMap
  | [], k, v => [(k, v)]
  | (k', v') :: rest, k, v =>
    if k' = k then (k, v) :: rest else (k', v') :: insertOrReplace rest k v

/-- `info.get(k)`: the entry at key `k`, if present. -/
def lookupEntry : InfoMap → String → Option Entry
  | [], _ => none
  | (k', v) :: rest, k => if k' = k then some v else lookupEntry rest k

/-- `k in info`. -/
def containsKey (m : InfoMap) (k : String) : Bool :=
  (lookupEntry m k).isSome

/-- `info[k]["columns"].append(c)`: append `c` to the columns of the entry
at key `k` (no change when the key is absent). -/
def appendColumn : InfoMap → String → String → InfoMap
  | [], _, _ => []
  | (k', e) :: rest, k, c =>
    if k' = k then (k', ⟨e.table_name, e.columns ++ [c]⟩) :: rest
    else (k', e) :: appendColumn rest k c

/-- Step 1 of `parse_query`: register every CTE definition under its
declared name with `table_name = "CTE"` and empty columns. -/
def registerCTEs (ctes : List CTENode) (m : InfoMap) : InfoMap :=
  ctes.foldl (fun acc c => insertOrReplace acc c.«alias» ⟨"CTE", []⟩) m

/-- `table_expr.«alias» or table_expr.name`: the effective qualifier of a
table reference. -/
def effQual (tb : TableNode) : String :=
  if tb.«alias» = "" then tb.name else tb.«alias»

/-- Step 2 of `parse_query`: register every table reference under its
effective qualifier with `table_name` the actual table name and empty
columns. -/
def registerTables (tables : List TableNode) (m : InfoMap) : InfoMap :=
  tables.foldl (fun acc tb => insertOrReplace acc (effQual tb) ⟨tb.name, []⟩) m

/-- Step 3 of `parse_query`: register every subquery that carries an alias
under that alias with `table_name = "Subquery"` and empty columns. -/
def registerSubqueries (subqs : List SubqueryNode) (m : InfoMap) : InfoMap :=
  subqs.foldl
    (fun acc sq =>
      if sq.«alias» = "" then acc else insertOrReplace acc sq.«alias» ⟨"Subquery", []⟩)
    m

/-- Step 4 of `parse_query`, one column: a qualified column creates a
fresh entry (`table_name` = the qualifier itself) when its qualifier is
unknown, then appends its bare name to the qualifier's entry; a bare
column is ignored. -/
def attributeColumn (m : InfoMap) (c : ColumnNode) : InfoMap :=
  if c.table = "" then m
  else
    let m1 := if containsKey m c.table then m else insertOrReplace m c.table ⟨c.table, []⟩
    appendColumn m1 c.table c.name

/-- Step 4 of `parse_query`: attribute every qualified column. -/
def attributeColumns (cols : List ColumnNode) (m : InfoMap) : InfoMap :=
  cols.foldl attributeColumn m

/-- The `info` dict after steps 1-3 (all registrations, before column
attribution). -/
def registeredInfo (t : SyntaxTree) : InfoMap :=
  registerSubqueries t.subqueries (registerTables t.tables (registerCTEs t.ctes []))

/-- The `info` dict after step 4, before normalization. -/
def buildInfo (t : SyntaxTree) : InfoMap :=
  attributeColumns t.columns (registeredInfo t)

/-- `sorted(set(columns))`: the lexicographically sorted list of the
distinct column names.  Strings are compared through their character
lists (the same code-point-wise lexicographic order as `String.le`,
stated by `String.le_iff_toList_le`), which the kernel can evaluate. -/
def sortedUnique (l : List String) : List String :=
  List.insertionSort (fun a b => a.toList ≤ b.toList) l.dedup

/-- First half of step 5: replace every entry's columns by
`sorted(set(columns))`. -/
def normalizeInfo (m : InfoMap) : InfoMap :=
  m.map fun kv => (kv.1, ⟨kv.2.table_name, sortedUnique kv.2.columns⟩)

/-- `column.alias_or_name`: the output alias when present, else the bare
name. -/
def aliasOrName (c : ColumnNode) : String :=
  if c.«alias» = "" then c.name else c.«alias»

/-- `[column.alias_or_name for column in parsed.find_all(Column)]`: every
column reference of the whole tree, qualified or not, in traversal order,
without deduplication. -/
def allColumns (t : SyntaxTree) : List String :=
  t.columns.map aliasOrName

/-- `parse_query` on an already-parsed tree.  After normalization the
loop variable `alias_data` leaks out of the `for` loop and still names the
last-iterated (last-inserted) entry; when that entry's columns are empty
they are overwritten with `allColumns`.  When `info` is empty the loop
never ran, `alias_data` is unbound, and line 57 raises `NameError`:
modelled as `none`. -/
def parse_query (t : SyntaxTree) : Option InfoMap :=
  let n := normalizeInfo (buildInfo t)
  match n.getLast? with
  | none => none
  | some kv =>
    if kv.2.columns = [] then
      some (n.dropLast ++ [(kv.1, ⟨kv.2.table_name, allColumns t⟩)])
    else some n

/-- Failure modes of a full `extract(tree)` call. -/
inductive ExtractErr where
  /-- Modelled from the spec: `ParseUnavailable`, the upstream tree is
  null/absent (in the source this surfaces as an attribute access on a
  missing parse result; the spec names it `ParseUnavailable`). -/
  | parseUnavailable
  /-- The `NameError` raised at line 57 of `src/column.py` when `info` is
  empty: the loop variable `alias_data` was never bound. -/
  | unboundLastEntry
  deriving Repr, DecidableEq

/-- `extract(tree)`: fails with `parseUnavailable` when the tree is
absent, otherwise runs `parse_query`; an empty `info` dict surfaces the
`NameError` of the leaked loop variable. -/
def extract : Option SyntaxTree → Except ExtractErr InfoMap
  | none => Except.error ExtractErr.parseUnavailable
  | some t =>
    match parse_query t with
    | none => Except.error ExtractErr.unboundLastEntry
    | some r => Except.ok r

/-- The extractor's state when made explicit: the input tree and the
`info` dict it owns.  The source only ever reads the tree (via `find_all`
and attribute access) and assigns to `info` / `alias_data`. -/
structure ExtState where
  tree : SyntaxTree
  info : InfoMap
  deriving Repr, DecidableEq

/-- Step 1 as a state transformer: reads `tree`, writes `info`. -/
def stepCTEs (s : ExtState) : ExtState :=
  { s with info := registerCTEs s.tree.ctes s.info }

/-- Step 2 as a state transformer: reads `tree`, writes `info`. -/
def stepTables (s : ExtState) : ExtState :=
  { s with info := registerTables s.tree.tables s.info }

/-- Step 3 as a state transformer: reads `tree`, writes `info`. -/
def stepSubqueries (s : ExtState) : ExtState :=
  { s with info := registerSubqueries s.tree.subqueries s.info }

/-- Step 4 as a state transformer: reads `tree`, writes `info`. -/
def stepColumns (s : ExtState) : ExtState :=
  { s with info := attributeColumns s.tree.columns s.info }

/-- The whole extraction with the state threaded explicitly: returns the
result (or `none` for the `NameError` path) together with the final
state, whose `tree` field the claims compare with the input. -/
def extractRun (t : SyntaxTree) : Option InfoMap × ExtState :=
  let s4 := stepColumns (stepSubqueries (stepTables (stepCTEs ⟨t, []⟩)))
  let n := normalizeInfo s4.info
  match n.getLast? with
  | none => (none, { s4 with info := n })
  | some kv =>
    if kv.2.columns = [] then
      let n2 := n.dropLast ++ [(kv.1, ⟨kv.2.table_name, allColumns s4.tree⟩)]
      (some n2, { s4 with info := n2 })
    else (some n, { s4 with info := n })

/-! ## Basic association-list lemmas -/

/-- The key list of the `info` dict, in iteration order. -/
def keysOf (m : InfoMap) : List String := m.map Prod.fst

@[simp] theorem lookupEntry_nil (k : String) : lookupEntry [] k = none := rfl

@[simp] theorem lookupEntry_cons (k1 : String) (v1 : Entry) (rest : InfoMap) (k : String) :
    lookupEntry ((k1, v1) :: rest) k = if k1 = k then some v1 else lookupEntry rest k := rfl

@[simp] theorem insertOrReplace_nil (k : String) (v : Entry) :
    insertOrReplace [] k v = [(k, v)] := rfl

@[simp] theorem insertOrReplace_cons (k1 : String) (v1 : Entry) (rest : InfoMap)
    (k : String) (v : Entry) :
    insertOrReplace ((k1, v1) :: rest) k v =
      if k1 = k then (k, v) :: rest else (k1, v1) :: insertOrReplace rest k v := rfl

@[simp] theorem appendColumn_nil (k c : String) : appendColumn [] k c = [] := rfl

@[simp] theorem appendColumn_cons (k1 : String) (v1 : Entry) (rest : InfoMap) (k c : String) :
    appendColumn ((k1, v1) :: rest) k c =
      if k1 = k then (k1, ⟨v1.table_name, v1.columns ++ [c]⟩) :: rest
      else (k1, v1) :: appendColumn rest k c := rfl

@[simp] theorem keysOf_nil : keysOf [] = [] := rfl

@[simp] theorem keysOf_cons (k1 : String) (v1 : Entry) (rest : InfoMap) :
    keysOf ((k1, v1) :: rest) = k1 :: keysOf rest := rfl

@[simp] theorem keysOf_append (m1 m2 : InfoMap) :
    keysOf (m1 ++ m2) = keysOf m1 ++ keysOf m2 := by
  simp [keysOf]

theorem lookupEntry_insert_self (m : InfoMap) (k : String) (v : Entry) :
    lookupEntry (insertOrReplace m k v) k = some v := by
  induction m with
  | nil => simp
  | cons kv rest ih =>
    obtain ⟨k1, v1⟩ := kv
    by_cases h : k1 = k <;> simp [h, ih]

theorem lookupEntry_insert_ne (m : InfoMap) (k : String) (v : Entry) (k2 : String)
    (h : k2 ≠ k) :
    lookupEntry (insertOrReplace m k v) k2 = lookupEntry m k2 := by
  have h2 : ¬ k = k2 := Ne.symm h
  induction m with
  | nil => simp [h2]
  | cons kv rest ih =>
    obtain ⟨k1, v1⟩ := kv
    by_cases hk : k1 = k
    · subst hk
      simp [h2, fun hh : k1 = k2 => h2 (hh ▸ rfl)]
    · simp [hk, ih]

theorem lookupEntry_append (m1 m2 : InfoMap) (k : String) :
    lookupEntry (m1 ++ m2) k =
      match lookupEntry m1 k with
      | some e => some e
      | none => lookupEntry m2 k := by
  induction m1 with
  | nil => simp
  | cons kv rest ih =>
    obtain ⟨k1, v1⟩ := kv
    by_cases h : k1 = k <;> simp [h, ih]

theorem lookupEntry_appendColumn_self (m : InfoMap) (k c : String) :
    lookupEntry (appendColumn m k c) k =
      (lookupEntry m k).map fun e => ⟨e.table_name, e.columns ++ [c]⟩ := by
  induction m with
  | nil => simp
  | cons kv rest ih =>
    obtain ⟨k1, v1⟩ := kv
    by_cases h : k1 = k <;> simp [h, ih]

theorem lookupEntry_appendColumn_ne (m : InfoMap) (k c k2 : String) (h : k2 ≠ k) :
    lookupEntry (appendColumn m k c) k2 = lookupEntry m k2 := by
  induction m with
  | nil => simp
  | cons kv rest ih =>
    obtain ⟨k1, v1⟩ := kv
    by_cases hk : k1 = k
    · subst hk
      simp [Ne.symm h, ih]
    · by_cases hk2 : k1 = k2 <;> simp [hk, hk2, h, ih]

theorem mem_keysOf_iff (m : InfoMap) (k : String) :
    k ∈ keysOf m ↔ (lookupEntry m k).isSome = true := by
  induction m with
  | nil => simp
  | cons kv rest ih =>
    obtain ⟨k1, v1⟩ := kv
    by_cases h : k1 = k
    · subst h; simp
    · simp [h, Ne.symm h, ih]

theorem containsKey_iff (m : InfoMap) (k : String) :
    containsKey m k = true ↔ k ∈ keysOf m := by
  rw [containsKey, mem_keysOf_iff]

theorem keysOf_insert (m : InfoMap) (k : String) (v : Entry) :
    keysOf (insertOrReplace m k v) =
      if k ∈ keysOf m then keysOf m else keysOf m ++ [k] := by
  induction m with
  | nil => simp
  | cons kv rest ih =>
    obtain ⟨k1, v1⟩ := kv
    by_cases h : k1 = k
    · subst h; simp
    · have h2 : ¬ k = k1 := Ne.symm h
      by_cases hm : k ∈ keysOf rest <;> simp [h, h2, hm, ih]

theorem keysOf_appendColumn (m : InfoMap) (k c : String) :
    keysOf (appendColumn m k c) = keysOf m := by
  induction m with
  | nil => simp
  | cons kv rest ih =>
    obtain ⟨k1, v1⟩ := kv
    by_cases h : k1 = k <;> simp [h, ih]

/-! ## First-registration order -/

/-- Keep the first occurrence of every string not already in `seen`. -/
def firstDedupAux : List String → List String → List String
  | [], _ => []
  | x :: xs, seen =>
    if x ∈ seen then firstDedupAux xs seen else x :: firstDedupAux xs (x :: seen)

theorem firstDedupAux_congr (l : List String) (s1 s2 : List String)
    (h : ∀ x, x ∈ s1 ↔ x ∈ s2) : firstDedupAux l s1 = firstDedupAux l s2 := by
  induction l generalizing s1 s2 with
  | nil => rfl
  | cons x xs ih =>
    by_cases hx : x ∈ s1
    · simp only [firstDedupAux, if_pos hx, if_pos ((h x).mp hx)]
      exact ih s1 s2 h
    · have hx2 : x ∉ s2 := fun hh => hx ((h x).mpr hh)
      simp only [firstDedupAux, if_neg hx, if_neg hx2]
      rw [ih (x :: s1) (x :: s2) (by intro y; simp [h y])]

theorem mem_firstDedupAux (l : List String) (s : List String) (x : String) :
    x ∈ firstDedupAux l s ↔ x ∈ l ∧ x ∉ s := by
  induction l generalizing s with
  | nil => simp [firstDedupAux]
  | cons y ys ih =>
    by_cases hy : y ∈ s
    · simp only [firstDedupAux, if_pos hy, ih, List.mem_cons]
      constructor
      · rintro ⟨hmem, hns⟩; exact ⟨Or.inr hmem, hns⟩
      · rintro ⟨hxy | hmem, hns⟩
        · exact absurd (hxy ▸ hy) hns
        · exact ⟨hmem, hns⟩
    · simp only [firstDedupAux, if_neg hy, List.mem_cons, ih]
      constructor
      · rintro (hxy | ⟨hmem, hns⟩)
        · exact ⟨Or.inl hxy, hxy ▸ hy⟩
        · exact ⟨Or.inr hmem, fun hh => hns (Or.inr hh)⟩
      · rintro ⟨hxy | hmem, hns⟩
        · exact Or.inl hxy
        · by_cases hxyeq : x = y
          · exact Or.inl hxyeq
          · exact Or.inr ⟨hmem, fun hh => hh.elim hxyeq hns⟩

theorem firstDedupAux_nodup (l : List String) (s : List String) :
    (firstDedupAux l s).Nodup := by
  induction l generalizing s with
  | nil => simp [firstDedupAux]
  | cons x xs ih =>
    by_cases hx : x ∈ s
    · simpa [firstDedupAux, hx] using ih s
    · simp only [firstDedupAux, if_neg hx, List.nodup_cons]
      refine ⟨fun hmem => ?_, ih (x :: s)⟩
      exact ((mem_firstDedupAux xs (x :: s) x).mp hmem).2 (List.mem_cons_self x s)

theorem firstDedupAux_append (a b s : List String) :
    firstDedupAux (a ++ b) s =
      firstDedupAux a s ++ firstDedupAux b (firstDedupAux a s ++ s) := by
  induction a generalizing s with
  | nil => simp [firstDedupAux]
  | cons x xs ih =>
    by_cases hx : x ∈ s
    · simp only [List.cons_append, firstDedupAux, if_pos hx]
      exact ih s
    · simp only [List.cons_append, firstDedupAux, if_neg hx, List.append_eq]
      rw [ih (x :: s)]
      congr 2
      apply firstDedupAux_congr
      intro y
      simp only [List.mem_append, List.mem_cons]
      tauto

/-- Extending an iteration-order key list by the keys of `a` that are new. -/
def seenExtend (s : List String) (a : List String) : List String :=
  s ++ firstDedupAux a s

theorem seenExtend_append (s a b : List String) :
    seenExtend s (a ++ b) = seenExtend (seenExtend s a) b := by
  unfold seenExtend
  rw [firstDedupAux_append, ← List.append_assoc]
  congr 1
  apply firstDedupAux_congr
  intro y
  simp only [List.mem_append]
  tauto

@[simp] theorem registerCTEs_nil (m : InfoMap) : registerCTEs [] m = m := rfl

@[simp] theorem registerCTEs_cons (c : CTENode) (l : List CTENode) (m : InfoMap) :
    registerCTEs (c :: l) m = registerCTEs l (insertOrReplace m c.«alias» ⟨"CTE", []⟩) := rfl

@[simp] theorem registerTables_nil (m : InfoMap) : registerTables [] m = m := rfl

@[simp] theorem registerTables_cons (tb : TableNode) (l : List TableNode) (m : InfoMap) :
    registerTables (tb :: l) m =
      registerTables l (insertOrReplace m (effQual tb) ⟨tb.name, []⟩) := rfl

@[simp] theorem registerSubqueries_nil (m : InfoMap) : registerSubqueries [] m = m := rfl

@[simp] theorem registerSubqueries_cons (sq : SubqueryNode) (l : List SubqueryNode)
    (m : InfoMap) :
    registerSubqueries (sq :: l) m =
      registerSubqueries l
        (if sq.«alias» = "" then m else insertOrReplace m sq.«alias» ⟨"Subquery", []⟩) := by
  unfold registerSubqueries
  rw [List.foldl_cons]

@[simp] theorem attributeColumns_nil (m : InfoMap) : attributeColumns [] m = m := rfl

@[simp] theorem attributeColumns_cons (c : ColumnNode) (l : List ColumnNode) (m : InfoMap) :
    attributeColumns (c :: l) m = attributeColumns l (attributeColumn m c) := rfl

theorem keysOf_registerCTEs (l : List CTENode) (m : InfoMap) :
    keysOf (registerCTEs l m) = seenExtend (keysOf m) (l.map CTENode.«alias») := by
  induction l generalizing m with
  | nil => simp [seenExtend, firstDedupAux]
  | cons c l ih =>
    rw [registerCTEs_cons, ih, keysOf_insert]
    unfold seenExtend
    by_cases h : c.«alias» ∈ keysOf m
    · simp only [if_pos h, List.map_cons, firstDedupAux, if_pos h]
    · simp only [if_neg h, List.map_cons, firstDedupAux, if_neg h]
      rw [List.append_assoc, List.singleton_append]
      congr 2
      apply firstDedupAux_congr
      intro y
      simp only [List.mem_append, List.mem_cons, List.mem_singleton]
      tauto

theorem keysOf_registerTables (l : List TableNode) (m : InfoMap) :
    keysOf (registerTables l m) = seenExtend (keysOf m) (l.map effQual) := by
  induction l generalizing m with
  | nil => simp [seenExtend, firstDedupAux]
  | cons tb l ih =>
    rw [registerTables_cons, ih, keysOf_insert]
    unfold seenExtend
    by_cases h : effQual tb ∈ keysOf m
    · simp only [if_pos h, List.map_cons, firstDedupAux, if_pos h]
    · simp only [if_neg h, List.map_cons, firstDedupAux, if_neg h]
      rw [List.append_assoc, List.singleton_append]
      congr 2
      apply firstDedupAux_congr
      intro y
      simp only [List.mem_append, List.mem_cons, List.mem_singleton]
      tauto

theorem keysOf_registerSubqueries (l : List SubqueryNode) (m : InfoMap) :
    keysOf (registerSubqueries l m) =
      seenExtend (keysOf m)
        ((l.filter fun sq => sq.«alias» != "").map SubqueryNode.«alias») := by
  induction l generalizing m with
  | nil => simp [seenExtend, firstDedupAux]
  | cons sq l ih =>
    rw [registerSubqueries_cons, ih]
    by_cases he : sq.«alias» = ""
    · simp [he, List.filter_cons]
    · rw [if_neg he, keysOf_insert]
      unfold seenExtend
      have hf : (sq :: l).filter (fun sq => sq.«alias» != "") =
          sq :: l.filter (fun sq => sq.«alias» != "") := by
        simp [List.filter_cons, he]
      rw [hf]
      by_cases h : sq.«alias» ∈ keysOf m
      · simp only [if_pos h, List.map_cons, firstDedupAux, if_pos h]
      · simp only [if_neg h, List.map_cons, firstDedupAux, if_neg h]
        rw [List.append_assoc, List.singleton_append]
        congr 2
        apply firstDedupAux_congr
        intro y
        simp only [List.mem_append, List.mem_cons, List.mem_singleton]
        tauto

theorem keysOf_attributeColumn (m : InfoMap) (c : ColumnNode) :
    keysOf (attributeColumn m c) =
      if c.table = "" then keysOf m
      else if c.table ∈ keysOf m then keysOf m else keysOf m ++ [c.table] := by
  unfold attributeColumn
  by_cases hc : c.table = ""
  · simp [hc]
  · rw [if_neg hc, if_neg hc]
    by_cases h : c.table ∈ keysOf m
    · have : containsKey m c.table = true := (containsKey_iff m c.table).mpr h
      simp [this, keysOf_appendColumn, h]
    · have : ¬ containsKey m c.table = true := fun hh => h ((containsKey_iff m c.table).mp hh)
      simp only [this, if_neg, Bool.not_eq_true] at *
      simp [this, keysOf_appendColumn, keysOf_insert, h]

theorem keysOf_attributeColumns (l : List ColumnNode) (m : InfoMap) :
    keysOf (attributeColumns l m) =
      seenExtend (keysOf m) ((l.filter fun c => c.table != "").map ColumnNode.table) := by
  induction l generalizing m with
  | nil => simp [seenExtend, firstDedupAux]
  | cons c l ih =>
    rw [attributeColumns_cons, ih, keysOf_attributeColumn]
    by_cases hc : c.table = ""
    · simp [hc, List.filter_cons]
    · rw [if_neg hc]
      unfold seenExtend
      have hf : (c :: l).filter (fun c => c.table != "") =
          c :: l.filter (fun c => c.table != "") := by
        simp [List.filter_cons, hc]
      rw [hf]
      by_cases h : c.table ∈ keysOf m
      · simp only [if_pos h, List.map_cons, firstDedupAux, if_pos h]
      · simp only [if_neg h, List.map_cons, firstDedupAux, if_neg h]
        rw [List.append_assoc, List.singleton_append]
        congr 2
        apply firstDedupAux_congr
        intro y
        simp only [List.mem_append, List.mem_cons, List.mem_singleton]
        tauto

/-- The sequence of qualifier keys in registration order: CTE names, then
table qualifiers, then nonempty subquery aliases, then the qualifiers of
qualified columns, each in tree-traversal order. -/
def registrationKeys (t : SyntaxTree) : List String :=
  t.ctes.map CTENode.«alias» ++ t.tables.map effQual ++
    (t.subqueries.filter fun sq => sq.«alias» != "").map SubqueryNode.«alias» ++
    (t.columns.filter fun c => c.table != "").map ColumnNode.table

theorem keysOf_buildInfo (t : SyntaxTree) :
    keysOf (buildInfo t) = firstDedupAux (registrationKeys t) [] := by
  unfold buildInfo registeredInfo registrationKeys
  rw [keysOf_attributeColumns, keysOf_registerSubqueries, keysOf_registerTables,
    keysOf_registerCTEs, ← seenExtend_append, ← seenExtend_append, ← seenExtend_append]
  simp [seenExtend, keysOf]

/-! ## Lookup characterization of each phase -/

theorem lookupEntry_registerCTEs (l : List CTENode) (m : InfoMap) (k : String) :
    lookupEntry (registerCTEs l m) k =
      if l.any (fun c => c.«alias» == k) then some ⟨"CTE", []⟩ else lookupEntry m k := by
  induction l generalizing m with
  | nil => simp
  | cons c l ih =>
    rw [registerCTEs_cons, ih]
    by_cases hl : l.any (fun c => c.«alias» == k) = true
    · simp [hl]
    · by_cases hc : c.«alias» = k
      · subst hc
        simp [hl, lookupEntry_insert_self]
      · simp [hl, hc, lookupEntry_insert_ne m c.«alias» ⟨"CTE", []⟩ k (Ne.symm hc)]

/-- The table node whose registration wins for key `k`: the last
table-reference node of the list whose effective qualifier is `k`. -/
def lastRegistered : List TableNode → String → Option TableNode
  | [], _ => none
  | tb :: l, k =>
    match lastRegistered l k with
    | some tb2 => some tb2
    | none => if effQual tb = k then some tb else none

theorem lastRegistered_eq_filter_getLast (l : List TableNode) (k : String) :
    lastRegistered l k = (l.filter fun tb => effQual tb == k).getLast? := by
  induction l with
  | nil => rfl
  | cons tb l ih =>
    by_cases hq : effQual tb = k
    · have hf : (tb :: l).filter (fun tb => effQual tb == k) =
          tb :: l.filter (fun tb => effQual tb == k) := by
        simp [List.filter_cons, hq]
      rw [hf]
      cases hrec : (l.filter fun tb => effQual tb == k).getLast? with
      | none =>
        have : l.filter (fun tb => effQual tb == k) = [] := by
          cases hfl : l.filter (fun tb => effQual tb == k) with
          | nil => rfl
          | cons a as =>
            rw [hfl] at hrec
            simp [List.getLast?_eq_getLast_of_ne_nil] at hrec
        simp [lastRegistered, ih, hrec, this, hq]
      | some tb2 =>
        have hne : l.filter (fun tb => effQual tb == k) ≠ [] := by
          intro hh
          rw [hh] at hrec
          simp at hrec
        rw [show lastRegistered (tb :: l) k =
            (match lastRegistered l k with
             | some tb2 => some tb2
             | none => if effQual tb = k then some tb else none) from rfl]
        rw [ih, hrec]
        rw [List.getLast?_eq_getLast_of_ne_nil (by simp [hne])]
        rw [List.getLast?_eq_getLast_of_ne_nil hne] at hrec
        rw [List.getLast_cons hne]
        exact hrec.symm
    · have hf : (tb :: l).filter (fun tb => effQual tb == k) =
          l.filter (fun tb => effQual tb == k) := by
        simp [List.filter_cons, hq]
      rw [hf, show lastRegistered (tb :: l) k =
          (match lastRegistered l k with
           | some tb2 => some tb2
           | none => if effQual tb = k then some tb else none) from rfl, ih]
      cases hrec : (l.filter fun tb => effQual tb == k).getLast? <;> simp [hq]

theorem lookupEntry_registerTables (l : List TableNode) (m : InfoMap) (k : String) :
    lookupEntry (registerTables l m) k =
      match lastRegistered l k with
      | some tb => some ⟨tb.name, []⟩
      | none => lookupEntry m k := by
  induction l generalizing m with
  | nil => simp [lastRegistered]
  | cons tb l ih =>
    rw [registerTables_cons, ih,
      show lastRegistered (tb :: l) k =
        (match lastRegistered l k with
         | some tb2 => some tb2
         | none => if effQual tb = k then some tb else none) from rfl]
    cases hrec : lastRegistered l k with
    | some tb2 => simp
    | none =>
      by_cases hq : effQual tb = k
      · subst hq
        simp [lookupEntry_insert_self]
      · simp [hq, lookupEntry_insert_ne m (effQual tb) ⟨tb.name, []⟩ k (Ne.symm hq)]

theorem lookupEntry_registerSubqueries (l : List SubqueryNode) (m : InfoMap) (k : String) :
    lookupEntry (registerSubqueries l m) k =
      if l.any (fun sq => sq.«alias» == k && sq.«alias» != "") then some ⟨"Subquery", []⟩
      else lookupEntry m k := by
  induction l generalizing m with
  | nil => simp
  | cons sq l ih =>
    rw [registerSubqueries_cons, ih]
    by_cases hl : l.any (fun sq => sq.«alias» == k && sq.«alias» != "") = true
    · simp [hl]
    · by_cases he : sq.«alias» = ""
      · simp [hl, he]
      · by_cases hc : sq.«alias» = k
        · subst hc
          simp [hl, he, lookupEntry_insert_self]
        · simp [hl, he, hc,
            lookupEntry_insert_ne m sq.«alias» ⟨"Subquery", []⟩ k (Ne.symm hc)]

/-- The bare names of the qualified columns whose qualifier is `k`, in
tree-traversal order: exactly the strings appended to entry `k` during
step 4. -/
def colNames (k : String) (cols : List ColumnNode) : List String :=
  (cols.filter fun c => c.table == k).map ColumnNode.name

@[simp] theorem colNames_nil (k : String) : colNames k [] = [] := rfl

theorem colNames_cons (k : String) (c : ColumnNode) (l : List ColumnNode) :
    colNames k (c :: l) =
      if c.table = k then c.name :: colNames k l else colNames k l := by
  by_cases h : c.table = k <;> simp [colNames, List.filter_cons, h]

theorem lookupEntry_attributeColumn_ne (m : InfoMap) (c : ColumnNode) (k : String)
    (h : k ≠ c.table) :
    lookupEntry (attributeColumn m c) k = lookupEntry m k := by
  unfold attributeColumn
  by_cases hc : c.table = ""
  · simp [hc]
  · rw [if_neg hc]
    by_cases hck : containsKey m c.table
    · simp [hck, lookupEntry_appendColumn_ne m c.table c.name k h]
    · simp [hck, lookupEntry_appendColumn_ne _ c.table c.name k h,
        lookupEntry_insert_ne m c.table ⟨c.table, []⟩ k h]

theorem lookupEntry_attributeColumn_self (m : InfoMap) (c : ColumnNode)
    (h : c.table ≠ "") :
    lookupEntry (attributeColumn m c) c.table =
      match lookupEntry m c.table with
      | some e => some ⟨e.table_name, e.columns ++ [c.name]⟩
      | none => some ⟨c.table, [c.name]⟩ := by
  unfold attributeColumn
  rw [if_neg h]
  cases hlk : lookupEntry m c.table with
  | some e =>
    have hck : containsKey m c.table = true := by simp [containsKey, hlk]
    simp [hck, lookupEntry_appendColumn_self, hlk]
  | none =>
    have hck : ¬ containsKey m c.table = true := by simp [containsKey, hlk]
    simp [hck, lookupEntry_appendColumn_self, lookupEntry_insert_self]

theorem lookupEntry_attributeColumns (l : List ColumnNode) (m : InfoMap) (k : String)
    (hk : k ≠ "") :
    lookupEntry (attributeColumns l m) k =
      match lookupEntry m k with
      | some e => some ⟨e.table_name, e.columns ++ colNames k l⟩
      | none => if colNames k l = [] then none else some ⟨k, colNames k l⟩ := by
  induction l generalizing m with
  | nil => cases h : lookupEntry m k <;> simp [h]
  | cons c l ih =>
    rw [attributeColumns_cons, ih (attributeColumn m c)]
    by_cases hct : c.table = k
    · subst hct
      rw [lookupEntry_attributeColumn_self m c hk, colNames_cons]
      cases h : lookupEntry m c.table with
      | some e => simp [List.append_assoc]
      | none => simp
    · rw [lookupEntry_attributeColumn_ne m c k (Ne.symm hct), colNames_cons, if_neg hct]

theorem lookupEntry_attributeColumns_empty_key (l : List ColumnNode) (m : InfoMap) :
    lookupEntry (attributeColumns l m) "" = lookupEntry m "" := by
  induction l generalizing m with
  | nil => rfl
  | cons c l ih =>
    rw [attributeColumns_cons, ih (attributeColumn m c)]
    by_cases hc : c.table = ""
    · unfold attributeColumn
      simp [hc]
    · exact lookupEntry_attributeColumn_ne m c "" fun hh => hc hh.symm

theorem lookupEntry_attributeColumns_preserve (l : List ColumnNode) (m : InfoMap)
    (k : String) (e : Entry) (h : lookupEntry m k = some e) :
    ∃ cs, lookupEntry (attributeColumns l m) k = some ⟨e.table_name, e.columns ++ cs⟩ := by
  by_cases hk : k = ""
  · subst hk
    refine ⟨[], ?_⟩
    rw [lookupEntry_attributeColumns_empty_key, h]
    simp
  · refine ⟨colNames k l, ?_⟩
    rw [lookupEntry_attributeColumns l m k hk, h]

/-! ## Values present after the registration passes -/

theorem mem_insertOrReplace (m : InfoMap) (k : String) (v : Entry)
    (kv : String × Entry) (h : kv ∈ insertOrReplace m k v) : kv ∈ m ∨ kv = (k, v) := by
  induction m with
  | nil => simpa using h
  | cons kv1 rest ih =>
    obtain ⟨k1, v1⟩ := kv1
    by_cases hk : k1 = k
    · rw [insertOrReplace_cons, if_pos hk] at h
      rcases List.mem_cons.mp h with h1 | h2
      · exact Or.inr h1
      · exact Or.inl (List.mem_cons_of_mem _ h2)
    · rw [insertOrReplace_cons, if_neg hk] at h
      rcases List.mem_cons.mp h with h1 | h2
      · exact Or.inl (h1 ▸ List.mem_cons_self _ _)
      · rcases ih h2 with h3 | h4
        · exact Or.inl (List.mem_cons_of_mem _ h3)
        · exact Or.inr h4

theorem mem_registerCTEs (l : List CTENode) (m : InfoMap) (kv : String × Entry)
    (h : kv ∈ registerCTEs l m) : kv ∈ m ∨ kv.2.columns = [] := by
  induction l generalizing m with
  | nil => exact Or.inl h
  | cons c l ih =>
    rw [registerCTEs_cons] at h
    rcases ih _ h with h1 | h2
    · rcases mem_insertOrReplace m c.«alias» ⟨"CTE", []⟩ kv h1 with h3 | h4
      · exact Or.inl h3
      · exact Or.inr (by rw [h4])
    · exact Or.inr h2

theorem mem_registerTables (l : List TableNode) (m : InfoMap) (kv : String × Entry)
    (h : kv ∈ registerTables l m) : kv ∈ m ∨ kv.2.columns = [] := by
  induction l generalizing m with
  | nil => exact Or.inl h
  | cons tb l ih =>
    rw [registerTables_cons] at h
    rcases ih _ h with h1 | h2
    · rcases mem_insertOrReplace m (effQual tb) ⟨tb.name, []⟩ kv h1 with h3 | h4
      · exact Or.inl h3
      · exact Or.inr (by rw [h4])
    · exact Or.inr h2

theorem mem_registerSubqueries (l : List SubqueryNode) (m : InfoMap) (kv : String × Entry)
    (h : kv ∈ registerSubqueries l m) : kv ∈ m ∨ kv.2.columns = [] := by
  induction l generalizing m with
  | nil => exact Or.inl h
  | cons sq l ih =>
    rw [registerSubqueries_cons] at h
    rcases ih _ h with h1 | h2
    · by_cases he : sq.«alias» = ""
      · rw [if_pos he] at h1
        exact Or.inl h1
      · rw [if_neg he] at h1
        rcases mem_insertOrReplace m sq.«alias» ⟨"Subquery", []⟩ kv h1 with h3 | h4
        · exact Or.inl h3
        · exact Or.inr (by rw [h4])
    · exact Or.inr h2

/-- Every entry present right after the three registration passes has an
empty column collection. -/
theorem registeredInfo_columns_empty (t : SyntaxTree) (kv : String × Entry)
    (h : kv ∈ registeredInfo t) : kv.2.columns = [] := by
  unfold registeredInfo at h
  rcases mem_registerSubqueries _ _ kv h with h1 | h2
  · rcases mem_registerTables _ _ kv h1 with h3 | h4
    · rcases mem_registerCTEs _ _ kv h3 with h5 | h6
      · simp at h5
      · exact h6
    · exact h4
  · exact h2

/-! ## Normalization -/

@[simp] theorem keysOf_normalizeInfo (m : InfoMap) : keysOf (normalizeInfo m) = keysOf m := by
  induction m with
  | nil => rfl
  | cons kv rest ih => simp [normalizeInfo, keysOf] at ih ⊢

theorem lookupEntry_normalizeInfo (m : InfoMap) (k : String) :
    lookupEntry (normalizeInfo m) k =
      (lookupEntry m k).map fun e => ⟨e.table_name, sortedUnique e.columns⟩ := by
  induction m with
  | nil => rfl
  | cons kv rest ih =>
    obtain ⟨k1, v1⟩ := kv
    by_cases h : k1 = k
    · simp [normalizeInfo, h]
    · simp only [normalizeInfo, List.map_cons, lookupEntry_cons, if_neg h] at ih ⊢
      exact ih

instance : IsTotal String fun a b => a.toList ≤ b.toList :=
  ⟨fun a b => le_total a.toList b.toList⟩

instance : IsTrans String fun a b => a.toList ≤ b.toList :=
  ⟨fun _ _ _ hab hbc => le_trans hab hbc⟩

theorem sortedUnique_nodup (l : List String) : (sortedUnique l).Nodup :=
  (List.perm_insertionSort (fun a b : String => a.toList ≤ b.toList) l.dedup).symm.nodup
    (List.nodup_dedup l)

theorem sortedUnique_sorted (l : List String) : (sortedUnique l).Sorted (· ≤ ·) := by
  have h := List.sorted_insertionSort (fun a b : String => a.toList ≤ b.toList) l.dedup
  exact h.imp fun hab => String.le_iff_toList_le.mpr hab

theorem sortedUnique_eq_nil_iff (l : List String) : sortedUnique l = [] ↔ l = [] := by
  have hlen : (sortedUnique l).length = l.dedup.length :=
    (List.perm_insertionSort (fun a b : String => a.toList ≤ b.toList) l.dedup).length_eq
  constructor
  · intro h
    rw [h] at hlen
    have hd : l.dedup = [] := List.eq_nil_of_length_eq_zero hlen.symm
    exact (List.dedup_eq_nil l).mp hd
  · intro h
    subst h
    rfl

theorem mem_sortedUnique (l : List String) (x : String) :
    x ∈ sortedUnique l ↔ x ∈ l := by
  unfold sortedUnique
  rw [(List.perm_insertionSort (fun a b : String => a.toList ≤ b.toList) l.dedup).mem_iff,
    List.mem_dedup]

/-! ## Structure of the final map -/

theorem keysOf_buildInfo_nodup (t : SyntaxTree) : (keysOf (buildInfo t)).Nodup := by
  rw [keysOf_buildInfo]
  exact firstDedupAux_nodup _ _

theorem lookupEntry_eq_of_mem (m : InfoMap) (k : String) (e : Entry)
    (hnd : (keysOf m).Nodup) (h : (k, e) ∈ m) : lookupEntry m k = some e := by
  induction m with
  | nil => simp at h
  | cons kv rest ih =>
    obtain ⟨k1, v1⟩ := kv
    rw [keysOf_cons, List.nodup_cons] at hnd
    rcases List.mem_cons.mp h with h1 | h2
    · obtain ⟨hk, he⟩ := Prod.mk.injEq .. ▸ h1
      injection h1 with h1a h1b
      rw [lookupEntry_cons, if_pos h1a.symm, h1b]
    · have hkmem : k ∈ keysOf rest :=
        List.mem_map.mpr ⟨(k, e), h2, rfl⟩
      have hne : k1 ≠ k := fun hh => hnd.1 (hh ▸ hkmem)
      rw [lookupEntry_cons, if_neg hne]
      exact ih hnd.2 h2

theorem parse_query_def (t : SyntaxTree) :
    parse_query t =
      match (normalizeInfo (buildInfo t)).getLast? with
      | none => none
      | some kv =>
        if kv.2.columns = [] then
          some ((normalizeInfo (buildInfo t)).dropLast ++
            [(kv.1, ⟨kv.2.table_name, allColumns t⟩)])
        else some (normalizeInfo (buildInfo t)) := rfl

theorem parse_query_eq_fire (t : SyntaxTree) (rest : InfoMap) (k : String) (e : Entry)
    (h : normalizeInfo (buildInfo t) = rest ++ [(k, e)]) (he : e.columns = []) :
    parse_query t = some (rest ++ [(k, ⟨e.table_name, allColumns t⟩)]) := by
  rw [parse_query_def, h]
  simp [List.getLast?_concat, List.dropLast_concat, he]

theorem parse_query_eq_skip (t : SyntaxTree) (rest : InfoMap) (k : String) (e : Entry)
    (h : normalizeInfo (buildInfo t) = rest ++ [(k, e)]) (he : e.columns ≠ []) :
    parse_query t = some (rest ++ [(k, e)]) := by
  rw [parse_query_def, h]
  simp [List.getLast?_concat, he]

theorem parse_query_none_iff (t : SyntaxTree) :
    parse_query t = none ↔ buildInfo t = [] := by
  rw [parse_query_def]
  cases hl : (normalizeInfo (buildInfo t)).getLast? with
  | none =>
    have hnil : normalizeInfo (buildInfo t) = [] := List.getLast?_eq_none_iff.mp hl
    have hb : buildInfo t = [] := by
      cases hb2 : buildInfo t with
      | nil => rfl
      | cons kv rest =>
        rw [hb2] at hnil
        simp [normalizeInfo] at hnil
    simp [hb]
  | some kv =>
    have hmem : kv ∈ normalizeInfo (buildInfo t) := List.mem_of_mem_getLast? hl
    have hne : buildInfo t ≠ [] := by
      intro hh
      rw [hh] at hmem
      simp [normalizeInfo] at hmem
    by_cases hc : kv.2.columns = [] <;> simp [hc, hne]

/-- The final map keeps the keys of `buildInfo` unchanged, in order. -/
theorem keysOf_parse_query (t : SyntaxTree) (r : InfoMap) (h : parse_query t = some r) :
    keysOf r = keysOf (buildInfo t) := by
  rw [parse_query_def] at h
  cases hl : (normalizeInfo (buildInfo t)).getLast? with
  | none => rw [hl] at h; cases h
  | some kv =>
    rw [hl] at h
    dsimp only at h
    obtain ⟨rest, hrest⟩ := List.getLast?_eq_some_iff.mp hl
    by_cases hc : kv.2.columns = []
    · rw [if_pos hc] at h
      injection h with h
      subst h
      rw [hrest, List.dropLast_concat]
      have heq : keysOf (rest ++ [(kv.1, (⟨kv.2.table_name, allColumns t⟩ : Entry))]) =
          keysOf (rest ++ [kv]) := by
        simp [keysOf]
      rw [heq, ← hrest, keysOf_normalizeInfo]
    · rw [if_neg hc] at h
      injection h with h
      subst h
      exact keysOf_normalizeInfo _

/-- The fallback never changes a key's `table_name`. -/
theorem lookupEntry_parse_query_table_name (t : SyntaxTree) (r : InfoMap) (k : String)
    (h : parse_query t = some r) :
    (lookupEntry r k).map Entry.table_name =
      (lookupEntry (normalizeInfo (buildInfo t)) k).map Entry.table_name := by
  rw [parse_query_def] at h
  cases hl : (normalizeInfo (buildInfo t)).getLast? with
  | none => rw [hl] at h; cases h
  | some kv =>
    rw [hl] at h
    dsimp only at h
    obtain ⟨rest, hrest⟩ := List.getLast?_eq_some_iff.mp hl
    by_cases hc : kv.2.columns = []
    · rw [if_pos hc] at h
      injection h with h
      subst h
      rw [hrest, List.dropLast_concat, lookupEntry_append, lookupEntry_append]
      cases hr : lookupEntry rest k with
      | some e => simp
      | none =>
        obtain ⟨k0, e0⟩ := kv
        by_cases hk0 : k0 = k <;> simp [hk0]
    · rw [if_neg hc] at h
      injection h with h
      subst h
      rfl

/-! ## Qualifiers never declared -/

/-- `k` is never declared: it is no CTE name, no table reference's
effective qualifier, and no subquery alias. -/
def undeclared (t : SyntaxTree) (k : String) : Prop :=
  (∀ c ∈ t.ctes, c.«alias» ≠ k) ∧ (∀ tb ∈ t.tables, effQual tb ≠ k) ∧
    (∀ sq ∈ t.subqueries, sq.«alias» ≠ k)

instance (t : SyntaxTree) (k : String) : Decidable (undeclared t k) := by
  unfold undeclared
  infer_instance

theorem lookupEntry_registeredInfo_undeclared (t : SyntaxTree) (k : String)
    (h : undeclared t k) : lookupEntry (registeredInfo t) k = none := by
  obtain ⟨h1, h2, h3⟩ := h
  unfold registeredInfo
  rw [lookupEntry_registerSubqueries]
  have hsq : t.subqueries.any (fun sq => sq.«alias» == k && sq.«alias» != "") = false := by
    rw [List.any_eq_false]
    intro sq hsq
    simp [h3 sq hsq]
  rw [hsq, if_neg (by simp), lookupEntry_registerTables]
  have htb : lastRegistered t.tables k = none := by
    rw [lastRegistered_eq_filter_getLast]
    have : t.tables.filter (fun tb => effQual tb == k) = [] :=
      List.filter_eq_nil_iff.mpr fun tb htb => by simp [h2 tb htb]
    rw [this]
    rfl
  rw [htb]
  have hcte : t.ctes.any (fun c => c.«alias» == k) = false := by
    rw [List.any_eq_false]
    intro c hc
    simp [h1 c hc]
  rw [lookupEntry_registerCTEs, hcte, if_neg (by simp)]
  rfl

theorem lookupEntry_buildInfo_undeclared (t : SyntaxTree) (k : String) (hk : k ≠ "")
    (h : undeclared t k) :
    lookupEntry (buildInfo t) k =
      if colNames k t.columns = [] then none else some ⟨k, colNames k t.columns⟩ := by
  unfold buildInfo
  rw [lookupEntry_attributeColumns _ _ k hk, lookupEntry_registeredInfo_undeclared t k h]

theorem mem_of_lookupEntry (m : InfoMap) (k : String) (e : Entry)
    (h : lookupEntry m k = some e) : (k, e) ∈ m := by
  induction m with
  | nil => simp at h
  | cons kv rest ih =>
    obtain ⟨k1, v1⟩ := kv
    by_cases hk : k1 = k
    · rw [lookupEntry_cons, if_pos hk] at h
      injection h with h
      exact hk ▸ h ▸ List.mem_cons_self _ _
    · rw [lookupEntry_cons, if_neg hk] at h
      exact List.mem_cons_of_mem _ (ih h)

/-- The columns accumulated in `buildInfo` for any nonempty key are
exactly the bare names of the qualified columns with that qualifier, in
traversal order. -/
theorem buildInfo_columns (t : SyntaxTree) (k : String) (e : Entry) (hk : k ≠ "")
    (h : lookupEntry (buildInfo t) k = some e) : e.columns = colNames k t.columns := by
  unfold buildInfo at h
  rw [lookupEntry_attributeColumns _ _ k hk] at h
  cases hr : lookupEntry (registeredInfo t) k with
  | some e0 =>
    rw [hr] at h
    injection h with h
    have h0 : e0.columns = [] :=
      registeredInfo_columns_empty t (k, e0) (mem_of_lookupEntry _ _ _ hr)
    rw [← h]
    simp [h0]
  | none =>
    rw [hr] at h
    by_cases hc : colNames k t.columns = []
    · rw [if_pos hc] at h
      cases h
    · rw [if_neg hc] at h
      injection h with h
      rw [← h]

theorem mem_keysOf_buildInfo (t : SyntaxTree) (k : String) :
    k ∈ keysOf (buildInfo t) ↔ k ∈ registrationKeys t := by
  rw [keysOf_buildInfo, mem_firstDedupAux]
  simp

/-! ## Concrete trees (parse trees of the driver's sample queries) -/

/-- The tree of `SELECT column1, column2 FROM table1 UNION SELECT column1,
column2 FROM table2;`: two unaliased table references and four bare
column references. -/
def unionTree : SyntaxTree :=
  ⟨[], [⟨"table1", ""⟩, ⟨"table2", ""⟩], [],
    [⟨"", "column1", ""⟩, ⟨"", "column2", ""⟩, ⟨"", "column1", ""⟩, ⟨"", "column2", ""⟩]⟩

/-- The tree of `SELECT a.column1, b.column2 FROM table1 a INNER JOIN
table2 b ON a.common_column = b.common_column;`. -/
def joinTree : SyntaxTree :=
  ⟨[], [⟨"table1", "a"⟩, ⟨"table2", "b"⟩], [],
    [⟨"a", "column1", ""⟩, ⟨"b", "column2", ""⟩,
     ⟨"a", "common_column", ""⟩, ⟨"b", "common_column", ""⟩]⟩

/-- A tree whose only node is a column qualified by a name never declared
anywhere (the correlated-subquery scenario). -/
def unknownQualTree : SyntaxTree :=
  ⟨[], [], [], [⟨"outer_alias", "col", ""⟩]⟩

/-- A tree with one CTE, one aliased table, one aliased subquery, one
unknown qualifier and one qualified column on the table alias. -/
def richTree : SyntaxTree :=
  ⟨[⟨"cte1"⟩], [⟨"t1", "a"⟩], [⟨"sq"⟩],
    [⟨"u", "x", ""⟩, ⟨"a", "y", ""⟩]⟩

/-- The result map `parse_query` produces for `richTree`. -/
def richResult : InfoMap :=
  [("cte1", ⟨"CTE", []⟩), ("a", ⟨"t1", ["y"]⟩),
   ("sq", ⟨"Subquery", []⟩), ("u", ⟨"u", ["x"]⟩)]

/-- A tree referencing the same table twice under the same alias, with
qualified columns on that alias. -/
def dupAliasTree : SyntaxTree :=
  ⟨[], [⟨"table1", "a"⟩, ⟨"table1", "a"⟩], [],
    [⟨"a", "x", ""⟩, ⟨"a", "y", ""⟩]⟩

/-- A tree declaring only one CTE named `w`. -/
def singleCTETree : SyntaxTree := ⟨[⟨"w"⟩], [], [], []⟩

/-- A tree where the CTE name `w` is also a table reference's effective
qualifier and, afterwards, a subquery alias. -/
def cteConsumedTree : SyntaxTree := ⟨[⟨"w"⟩], [⟨"w", ""⟩], [⟨"w"⟩], []⟩

/-- A tree where the CTE name `w` is consumed as the alias of a table
reference to `t1`, with no subquery aliases. -/
def cteAliasedTree : SyntaxTree :=
  ⟨[⟨"w"⟩], [⟨"t1", "w"⟩], [], [⟨"w", "x", ""⟩]⟩

/-! ## The claims -/

/-- Claim C1 (code bug): the contract says `extract` fails with
`ParseUnavailable` only for an absent tree and otherwise always succeeds,
an empty query yielding an empty map.  The code disagrees: on a present
tree with no CTE, table, subquery, or column nodes the `info` dict stays
empty, the step-5 `for` loop never runs, and line 57 of `src/column.py`
raises `NameError` because the leaked loop variable `alias_data` was
never bound — instead of returning an empty map. -/
theorem empty_query_raises :
    extract (some ⟨[], [], [], []⟩) = Except.error ExtractErr.unboundLastEntry ∧
    extract none = Except.error ExtractErr.parseUnavailable := by
  constructor <;> rfl

/-- Claim C2: after deduplication and sorting, the fill-from-all-columns
fallback applies to the last-inserted entry only: exactly when that
entry's deduplicated columns are empty it is overwritten with the
alias-or-own-name of every column reference of the tree, in traversal
order, without deduplication, and every other entry — empty or not — is
returned unchanged.  In the union scenario only `table2` receives the
fallback list while `table1` keeps empty columns. -/
theorem fallback_last_entry_only :
    (∀ (t : SyntaxTree) (rest : InfoMap) (k : String) (e : Entry),
        normalizeInfo (buildInfo t) = rest ++ [(k, e)] →
        (e.columns = [] →
            parse_query t = some (rest ++ [(k, ⟨e.table_name, allColumns t⟩)])) ∧
          (e.columns ≠ [] → parse_query t = some (rest ++ [(k, e)]))) ∧
    parse_query unionTree =
      some [("table1", ⟨"table1", []⟩),
            ("table2", ⟨"table2", ["column1", "column2", "column1", "column2"]⟩)] := by
  constructor
  · intro t rest k e h
    exact ⟨fun he => parse_query_eq_fire t rest k e h he,
      fun he => parse_query_eq_skip t rest k e h he⟩
  · rfl

/-- Witness for C2, instantiated at the union scenario: the last entry
`table2` had empty deduplicated columns, so the whole map is the first
entry unchanged plus `table2` overwritten with all four column
references. -/
theorem fallback_last_entry_only_witness :
    parse_query unionTree =
      some [("table1", ⟨"table1", []⟩),
            ("table2", ⟨"table2", ["column1", "column2", "column1", "column2"]⟩)] :=
  (fallback_last_entry_only.1 unionTree [("table1", ⟨"table1", []⟩)] "table2"
      ⟨"table2", []⟩ (by rfl)).1 (by rfl)

/-- Claim C7: the extractor is deterministic — two runs of `parse_query`
on the same parsed tree return identical result maps. -/
theorem parse_query_deterministic (t : SyntaxTree) (r1 r2 : InfoMap)
    (h1 : parse_query t = some r1) (h2 : parse_query t = some r2) : r1 = r2 := by
  rw [h1] at h2
  exact Option.some.inj h2

/-- Witness for C7 at the correlated-subquery tree. -/
theorem parse_query_deterministic_witness :
    ([("outer_alias", ⟨"outer_alias", ["col"]⟩)] : InfoMap) =
      [("outer_alias", ⟨"outer_alias", ["col"]⟩)] :=
  parse_query_deterministic unknownQualTree _ _ (by rfl) (by rfl)

/-- Claim C8: with the extractor's state made explicit, extraction only
ever writes the `info` dict — the tree component of the final state is
the input tree unchanged, and the produced result agrees with
`parse_query`. -/
theorem extract_no_tree_mutation (t : SyntaxTree) :
    (extractRun t).2.tree = t ∧ (extractRun t).1 = parse_query t := by
  rw [parse_query_def]
  unfold extractRun stepColumns stepSubqueries stepTables stepCTEs buildInfo registeredInfo
  dsimp only
  cases hl : (normalizeInfo (attributeColumns t.columns (registerSubqueries t.subqueries
      (registerTables t.tables (registerCTEs t.ctes []))))).getLast? with
  | none => exact ⟨rfl, rfl⟩
  | some kv =>
    dsimp only
    by_cases hc : kv.2.columns = [] <;> simp [hc]

/-- Claim C4: every entry of the result map that the step-5 fallback did
not overwrite (it still equals its normalized form) carries a duplicate-free,
lexicographically sorted column collection. -/
theorem columns_nodup_sorted (t : SyntaxTree) (r : InfoMap) (kv : String × Entry)
    (_hp : parse_query t = some r) (_hin : kv ∈ r)
    (hnf : kv ∈ normalizeInfo (buildInfo t)) :
    kv.2.columns.Nodup ∧ kv.2.columns.Sorted (· ≤ ·) := by
  obtain ⟨kv0, hkv0, heq⟩ := List.mem_map.mp hnf
  rw [← heq]
  exact ⟨sortedUnique_nodup _, sortedUnique_sorted _⟩

/-- Witness for C4 at the qualified-join tree: the columns of entry `a`
are deduplicated and sorted. -/
theorem columns_nodup_sorted_witness :
    (["column1", "common_column"] : List String).Nodup ∧
      (["column1", "common_column"] : List String).Sorted (· ≤ ·) :=
  columns_nodup_sorted joinTree
    [("a", ⟨"table1", ["column1", "common_column"]⟩),
     ("b", ⟨"table2", ["column2", "common_column"]⟩)]
    ("a", ⟨"table1", ["column1", "common_column"]⟩)
    (by rfl) (by decide) (by decide)

/-- Claim C5: re-registering an existing qualifier replaces its entry
(last write wins, columns reset to empty — every entry after the
registration passes has empty columns), yet no column is lost: after
step 4 any entry's columns are exactly the bare names of all qualified
columns with that qualifier anywhere in the tree, in traversal order. -/
theorem registration_last_write_wins :
    (∀ (m : InfoMap) (k : String) (v : Entry),
        lookupEntry (insertOrReplace m k v) k = some v) ∧
    (∀ (t : SyntaxTree) (kv : String × Entry), kv ∈ registeredInfo t →
        kv.2.columns = []) ∧
    (∀ (t : SyntaxTree) (k : String) (e : Entry), k ≠ "" →
        lookupEntry (buildInfo t) k = some e → e.columns = colNames k t.columns) :=
  ⟨lookupEntry_insert_self, registeredInfo_columns_empty,
    fun t k e hk h => buildInfo_columns t k e hk h⟩

/-- Witness for C5: an overwrite replaces the stored entry; the only
entry of a one-CTE registration has empty columns; and in the
duplicated-alias tree the entry for `a` accumulated both qualified
columns. -/
theorem registration_last_write_wins_witness :
    lookupEntry (insertOrReplace [("a", ⟨"CTE", []⟩)] "a" ⟨"table1", []⟩) "a" =
        some ⟨"table1", []⟩ ∧
      (("w", (⟨"CTE", []⟩ : Entry)) : String × Entry).2.columns = [] ∧
      (⟨"table1", ["x", "y"]⟩ : Entry).columns = colNames "a" dupAliasTree.columns :=
  ⟨registration_last_write_wins.1 [("a", ⟨"CTE", []⟩)] "a" ⟨"table1", []⟩,
   registration_last_write_wins.2.1 singleCTETree ("w", ⟨"CTE", []⟩) (by decide),
   registration_last_write_wins.2.2 dupAliasTree "a" ⟨"table1", ["x", "y"]⟩
     (by decide) (by rfl)⟩

/-- Claim C9: an entry whose qualifier was never declared (created only
during column attribution) always has nonempty columns, and when the
last-inserted entry of the map is such an entry the step-5 fallback never
fires — the map is returned exactly as normalized. -/
theorem unknown_entries_nonempty :
    (∀ (t : SyntaxTree) (k : String) (e : Entry), k ≠ "" → undeclared t k →
        lookupEntry (buildInfo t) k = some e → e.columns ≠ []) ∧
    (∀ (t : SyntaxTree) (rest : InfoMap) (k : String) (e : Entry), k ≠ "" →
        undeclared t k → normalizeInfo (buildInfo t) = rest ++ [(k, e)] →
        parse_query t = some (normalizeInfo (buildInfo t))) := by
  have part1 : ∀ (t : SyntaxTree) (k : String) (e : Entry), k ≠ "" → undeclared t k →
      lookupEntry (buildInfo t) k = some e → e.columns ≠ [] := by
    intro t k e hk hu h
    rw [lookupEntry_buildInfo_undeclared t k hk hu] at h
    by_cases hc : colNames k t.columns = []
    · rw [if_pos hc] at h
      cases h
    · rw [if_neg hc] at h
      injection h with h
      rw [← h]
      exact hc
  refine ⟨part1, ?_⟩
  intro t rest k e hk hu hsplit
  have hlast : (normalizeInfo (buildInfo t)).getLast? = some (k, e) := by
    rw [hsplit]
    exact List.getLast?_concat _
  have hmem : (k, e) ∈ normalizeInfo (buildInfo t) := List.mem_of_mem_getLast? hlast
  have hnd : (keysOf (normalizeInfo (buildInfo t))).Nodup := by
    rw [keysOf_normalizeInfo]
    exact keysOf_buildInfo_nodup t
  have hlook : lookupEntry (normalizeInfo (buildInfo t)) k = some e :=
    lookupEntry_eq_of_mem _ k e hnd hmem
  rw [lookupEntry_normalizeInfo] at hlook
  cases hb : lookupEntry (buildInfo t) k with
  | none =>
    rw [hb] at hlook
    cases hlook
  | some e0 =>
    rw [hb] at hlook
    injection hlook with hlook
    have hne0 : e0.columns ≠ [] := part1 t k e0 hk hu hb
    have hne : e.columns ≠ [] := by
      rw [← hlook]
      intro hh
      exact hne0 ((sortedUnique_eq_nil_iff e0.columns).mp hh)
    rw [hsplit]
    exact parse_query_eq_skip t rest k e hsplit hne

/-- Witness for C9 at the correlated-subquery tree: the unknown entry
`outer_alias` has nonempty columns and the fallback does not fire. -/
theorem unknown_entries_nonempty_witness :
    (["col"] : List String) ≠ [] ∧
      parse_query unknownQualTree = some (normalizeInfo (buildInfo unknownQualTree)) :=
  ⟨unknown_entries_nonempty.1 unknownQualTree "outer_alias" ⟨"outer_alias", ["col"]⟩
      (by decide) (by decide) (by rfl),
   unknown_entries_nonempty.2 unknownQualTree [] "outer_alias" ⟨"outer_alias", ["col"]⟩
      (by decide) (by decide) (by rfl)⟩

/-- Claim C3: every declared CTE name, every table reference's effective
qualifier, and every nonempty subquery alias is a key of the result map,
even with zero qualified columns referencing it; and every qualifier that
only ever appears as a column prefix gets an entry whose underlying name
is the qualifier string itself. -/
theorem declared_names_have_entries (t : SyntaxTree) (r : InfoMap)
    (hp : parse_query t = some r) :
    (∀ c ∈ t.ctes, c.«alias» ∈ keysOf r) ∧
    (∀ tb ∈ t.tables, effQual tb ∈ keysOf r) ∧
    (∀ sq ∈ t.subqueries, sq.«alias» ≠ "" → sq.«alias» ∈ keysOf r) ∧
    (∀ c ∈ t.columns, c.table ≠ "" → undeclared t c.table →
        ∃ e, lookupEntry r c.table = some e ∧ e.table_name = c.table) := by
  have hkeys : keysOf r = keysOf (buildInfo t) := keysOf_parse_query t r hp
  refine ⟨?_, ?_, ?_, ?_⟩
  · intro c hc
    rw [hkeys, mem_keysOf_buildInfo]
    unfold registrationKeys
    simp only [List.mem_append]
    exact Or.inl (Or.inl (Or.inl (List.mem_map.mpr ⟨c, hc, rfl⟩)))
  · intro tb htb
    rw [hkeys, mem_keysOf_buildInfo]
    unfold registrationKeys
    simp only [List.mem_append]
    exact Or.inl (Or.inl (Or.inr (List.mem_map.mpr ⟨tb, htb, rfl⟩)))
  · intro sq hsq hne
    rw [hkeys, mem_keysOf_buildInfo]
    unfold registrationKeys
    simp only [List.mem_append]
    exact Or.inl (Or.inr (List.mem_map.mpr
      ⟨sq, List.mem_filter.mpr ⟨hsq, by simp [hne]⟩, rfl⟩))
  · intro c hc hne hund
    have hmem : c.table ∈ keysOf r := by
      rw [hkeys, mem_keysOf_buildInfo]
      unfold registrationKeys
      simp only [List.mem_append]
      exact Or.inr (List.mem_map.mpr
        ⟨c, List.mem_filter.mpr ⟨hc, by simp [hne]⟩, rfl⟩)
    obtain ⟨e, he⟩ := Option.isSome_iff_exists.mp ((mem_keysOf_iff r c.table).mp hmem)
    refine ⟨e, he, ?_⟩
    have htn := lookupEntry_parse_query_table_name t r c.table hp
    rw [he, lookupEntry_normalizeInfo,
      lookupEntry_buildInfo_undeclared t c.table hne hund] at htn
    have hcn : colNames c.table t.columns ≠ [] := by
      intro hh
      simp only [colNames, List.map_eq_nil_iff, List.filter_eq_nil_iff] at hh
      exact hh c hc (by simp)
    rw [if_neg hcn] at htn
    simp at htn
    exact htn

/-- Witness for C3 at a tree with a CTE, an aliased table, an aliased
subquery, and a never-declared qualifier. -/
theorem declared_names_have_entries_witness :
    "cte1" ∈ keysOf richResult ∧ "a" ∈ keysOf richResult ∧ "sq" ∈ keysOf richResult ∧
      (∃ e, lookupEntry richResult "u" = some e ∧ e.table_name = "u") :=
  ⟨(declared_names_have_entries richTree richResult (by rfl)).1 ⟨"cte1"⟩ (by decide),
   (declared_names_have_entries richTree richResult (by rfl)).2.1 ⟨"t1", "a"⟩ (by decide),
   (declared_names_have_entries richTree richResult (by rfl)).2.2.1 ⟨"sq"⟩
     (by decide) (by decide),
   (declared_names_have_entries richTree richResult (by rfl)).2.2.2 ⟨"u", "x", ""⟩
     (by decide) (by decide) (by decide)⟩

/-- Claim C6: the result map's key order is first-registration order —
CTE names, then table qualifiers, then subquery aliases, then unknown
qualifiers in order of first qualified-column occurrence, keeping only
each key's first occurrence — and overwriting an existing key never moves
it. -/
theorem key_order_first_registration :
    (∀ (t : SyntaxTree) (r : InfoMap), parse_query t = some r →
        keysOf r = firstDedupAux (registrationKeys t) []) ∧
    (∀ (m : InfoMap) (k : String) (v : Entry), k ∈ keysOf m →
        keysOf (insertOrReplace m k v) = keysOf m) := by
  constructor
  · intro t r hp
    rw [keysOf_parse_query t r hp, keysOf_buildInfo]
  · intro m k v h
    rw [keysOf_insert, if_pos h]

/-- Witness for C6: concrete key order for `richTree` and a
position-preserving overwrite. -/
theorem key_order_first_registration_witness :
    keysOf richResult = firstDedupAux (registrationKeys richTree) [] ∧
      keysOf (insertOrReplace [("a", ⟨"CTE", []⟩)] "a" ⟨"table1", []⟩) =
        keysOf [("a", (⟨"CTE", []⟩ : Entry))] :=
  ⟨key_order_first_registration.1 richTree richResult (by rfl),
   key_order_first_registration.2 [("a", ⟨"CTE", []⟩)] "a" ⟨"table1", []⟩ (by decide)⟩

/-- Counterexample to claim C10 as stated: in `cteConsumedTree` the CTE
name `w` is also a table reference's effective qualifier, yet the final
entry's sourceKind is Subquery — a later subquery registration with the
same alias overwrote the table registration — not PhysicalTable: its
`table_name` is the marker string `"Subquery"`, which is no referenced
table's name. -/
theorem cte_overwrite_counterexample :
    (∃ c ∈ cteConsumedTree.ctes, c.«alias» = "w") ∧
      (∃ tb ∈ cteConsumedTree.tables, effQual tb = "w") ∧
      parse_query cteConsumedTree = some [("w", ⟨"Subquery", []⟩)] ∧
      (∀ tb ∈ cteConsumedTree.tables, tb.name ≠ "Subquery") := by
  decide

/-- Claim C10 (amended): when a CTE's declared name is also the effective
qualifier of some table reference, and no subquery alias equal to that
name is registered afterwards, the last such table registration
determines the entry, so its final underlying name is that table's name
(PhysicalTable), not CTE. -/
theorem cte_overwritten_by_table (t : SyntaxTree) (k : String) (tb : TableNode)
    (r : InfoMap) (e : Entry)
    (_hcte : ∃ c ∈ t.ctes, c.«alias» = k)
    (htb : lastRegistered t.tables k = some tb)
    (hsq : ∀ sq ∈ t.subqueries, sq.«alias» ≠ k)
    (hp : parse_query t = some r)
    (he : lookupEntry r k = some e) :
    e.table_name = tb.name := by
  have hreg : lookupEntry (registeredInfo t) k = some ⟨tb.name, []⟩ := by
    unfold registeredInfo
    rw [lookupEntry_registerSubqueries]
    have hsqf : t.subqueries.any (fun sq => sq.«alias» == k && sq.«alias» != "") =
        false := by
      rw [List.any_eq_false]
      intro sq hs
      simp [hsq sq hs]
    rw [hsqf, if_neg (by simp), lookupEntry_registerTables, htb]
  obtain ⟨cs, hbuild⟩ :=
    lookupEntry_attributeColumns_preserve t.columns (registeredInfo t) k ⟨tb.name, []⟩ hreg
  have hbuild2 : lookupEntry (buildInfo t) k = some ⟨tb.name, [] ++ cs⟩ := hbuild
  have htn := lookupEntry_parse_query_table_name t r k hp
  rw [he, lookupEntry_normalizeInfo, hbuild2] at htn
  simp at htn
  exact htn

/-- Witness for the amended C10: the CTE `w` consumed as the alias of
table `t1`, with no subqueries: the final entry's underlying name is
`t1`. -/
theorem cte_overwritten_by_table_witness :
    (⟨"t1", ["x"]⟩ : Entry).table_name = (⟨"t1", "w"⟩ : TableNode).name :=
  cte_overwritten_by_table cteAliasedTree "w" ⟨"t1", "w"⟩
    [("w", ⟨"t1", ["x"]⟩)] ⟨"t1", ["x"]⟩
    (by decide) (by decide) (by decide) (by rfl) (by rfl)
